import Mathlib

/-!
Verification of the single-file blockchain ledger (`blockchain.py`).

The development shallowly embeds the Python source: Python values that flow
through the ledger (ints, strings, lists, dicts, None) are the inductive
`PyVal`; blocks are Python dicts, i.e. association lists of string keys;
fallible operations (dict lookups that may raise KeyError, indexing that may
raise IndexError) return `Except String`.  SHA-256 is implemented executably
over byte lists, and `json.dumps(·, sort_keys=True)` is modelled by `dumps`,
which sorts each object's keys before serializing.  Timestamps (`time()`
returns a float in Python) are modelled as an arbitrary `PyVal` parameter of
each sealing step, since no ledger logic inspects them.
-/

/-- Python values as they occur in the ledger: integers, strings, lists,
dicts (association lists in insertion order) and None. -/
inductive PyVal where
  | int : Int → PyVal
  | str : String → PyVal
  | list : List PyVal → PyVal
  | dict : List (String × PyVal) → PyVal
  | none : PyVal

/-- Python dict with string keys, in insertion order. -/
abbrev Dict := List (String × PyVal)

/-- Python dict lookup `d[k]`: first entry with the given key (dicts built by
the program never have duplicate keys). -/
def lookupEntries (k : String) : Dict → Option PyVal
  | [] => Option.none
  | (k', v) :: rest => if k' = k then some v else lookupEntries k rest

/-- Python truthiness on the modelled values: `0`, `""`, `[]`, `\x7b\x7d` and
`None` are falsy, everything else truthy. -/
def falsy : PyVal → Bool
  | .int n => n == 0
  | .str s => s == ""
  | .list l => l.isEmpty
  | .dict l => l.isEmpty
  | .none => true

mutual

/-- Structural equality test on `PyVal` (Python `==` on these values). -/
def pbeq : PyVal → PyVal → Bool
  | .int a, .int b => a == b
  | .str a, .str b => a == b
  | .none, .none => true
  | .list a, .list b => pbeqL a b
  | .dict a, .dict b => pbeqE a b
  | _, _ => false

/-- Elementwise `pbeq` on lists. -/
def pbeqL : List PyVal → List PyVal → Bool
  | [], [] => true
  | a :: as, b :: bs => pbeq a b && pbeqL as bs
  | _, _ => false

/-- Entrywise `pbeq` on association lists. -/
def pbeqE : List (String × PyVal) → List (String × PyVal) → Bool
  | [], [] => true
  | (k, v) :: as, (k', v') :: bs => k == k' && pbeq v v' && pbeqE as bs
  | _, _ => false

end

mutual

theorem pbeq_iff : ∀ a b : PyVal, pbeq a b = true ↔ a = b
  | .int a, .int b => by simp [pbeq]
  | .int _, .str _ => by simp [pbeq]
  | .int _, .list _ => by simp [pbeq]
  | .int _, .dict _ => by simp [pbeq]
  | .int _, .none => by simp [pbeq]
  | .str _, .int _ => by simp [pbeq]
  | .str a, .str b => by simp [pbeq]
  | .str _, .list _ => by simp [pbeq]
  | .str _, .dict _ => by simp [pbeq]
  | .str _, .none => by simp [pbeq]
  | .list _, .int _ => by simp [pbeq]
  | .list _, .str _ => by simp [pbeq]
  | .list a, .list b => by simpa [pbeq] using pbeqL_iff a b
  | .list _, .dict _ => by simp [pbeq]
  | .list _, .none => by simp [pbeq]
  | .dict _, .int _ => by simp [pbeq]
  | .dict _, .str _ => by simp [pbeq]
  | .dict _, .list _ => by simp [pbeq]
  | .dict a, .dict b => by simpa [pbeq] using pbeqE_iff a b
  | .dict _, .none => by simp [pbeq]
  | .none, .int _ => by simp [pbeq]
  | .none, .str _ => by simp [pbeq]
  | .none, .list _ => by simp [pbeq]
  | .none, .dict _ => by simp [pbeq]
  | .none, .none => by simp [pbeq]

theorem pbeqL_iff : ∀ a b : List PyVal, pbeqL a b = true ↔ a = b
  | [], [] => by simp [pbeqL]
  | [], _ :: _ => by simp [pbeqL]
  | _ :: _, [] => by simp [pbeqL]
  | a :: as, b :: bs => by
      simp [pbeqL, pbeq_iff a b, pbeqL_iff as bs]

theorem pbeqE_iff : ∀ a b : List (String × PyVal), pbeqE a b = true ↔ a = b
  | [], [] => by simp [pbeqE]
  | [], _ :: _ => by simp [pbeqE]
  | _ :: _, [] => by simp [pbeqE]
  | (k, v) :: as, (k', v') :: bs => by
      simp [pbeqE, pbeq_iff v v', pbeqE_iff as bs, Prod.ext_iff, and_assoc]

end

instance : DecidableEq PyVal := fun a b => decidable_of_iff _ (pbeq_iff a b)

/-! SHA-256, implemented executably over lists of byte values (`Nat < 256`),
with 32-bit words as `Nat` reduced mod `2^32`. -/

/-- The 32-bit modulus. -/
def wmod : Nat := 4294967296

/-- Rotate the 32-bit word `x` right by `n` places. -/
def rotr (n x : Nat) : Nat := (x >>> n) ||| ((x <<< (32 - n)) % wmod)

/-- SHA-256 big sigma 0. -/
def bSig0 (x : Nat) : Nat := (rotr 2 x) ^^^ (rotr 13 x) ^^^ (rotr 22 x)

/-- SHA-256 big sigma 1. -/
def bSig1 (x : Nat) : Nat := (rotr 6 x) ^^^ (rotr 11 x) ^^^ (rotr 25 x)

/-- SHA-256 small sigma 0. -/
def sSig0 (x : Nat) : Nat := (rotr 7 x) ^^^ (rotr 18 x) ^^^ (x >>> 3)

/-- SHA-256 small sigma 1. -/
def sSig1 (x : Nat) : Nat := (rotr 17 x) ^^^ (rotr 19 x) ^^^ (x >>> 10)

/-- SHA-256 choice function. -/
def shaCh (x y z : Nat) : Nat := (x &&& y) ^^^ ((x ^^^ 4294967295) &&& z)

/-- SHA-256 majority function. -/
def shaMaj (x y z : Nat) : Nat := (x &&& y) ^^^ (x &&& z) ^^^ (y &&& z)

/-- The 64 SHA-256 round constants of FIPS 180-4, written in decimal. -/
def k256 : List Nat :=
  [1116352408, 1899447441, 3049323471, 3921009573, 961987163, 1508970993,
   2453635748, 2870763221, 3624381080, 310598401, 607225278, 1426881987,
   1925078388, 2162078206, 2614888103, 3248222580, 3835390401, 4022224774,
   264347078, 604807628, 770255983, 1249150122, 1555081692, 1996064986,
   2554220882, 2821834349, 2952996808, 3210313671, 3336571891, 3584528711,
   113926993, 338241895, 666307205, 773529912, 1294757372, 1396182291,
   1695183700, 1986661051, 2177026350, 2456956037, 2730485921, 2820302411,
   3259730800, 3345764771, 3516065817, 3600352804, 4094571909, 275423344,
   430227734, 506948616, 659060556, 883997877, 958139571, 1322822218,
   1537002063, 1747873779, 1955562222, 2024104815, 2227730452, 2361852424,
   2428436474, 2756734187, 3204031479, 3329325298]

/-- The eight initial SHA-256 state words of FIPS 180-4, in decimal. -/
def h256 : List Nat :=
  [1779033703, 3144134277, 1013904242, 2773480762,
   1359893119, 2600822924, 528734635, 1541459225]

/-- Pad a byte message: append `0x80`, zeros to 56 mod 64, then the bit length
as 8 big-endian bytes. -/
def padMessage (msg : List Nat) : List Nat :=
  let len := msg.length
  let zeros := (119 - (len % 64)) % 64
  msg ++ [128] ++ List.replicate zeros 0 ++
    (List.range 8).map (fun i => ((len * 8) >>> (56 - 8 * i)) % 256)

/-- Group a byte list into big-endian 32-bit words, four bytes at a time. -/
def toWords : List Nat → List Nat
  | a :: b :: c :: d :: rest => (a * 16777216 + b * 65536 + c * 256 + d) :: toWords rest
  | _ => []

/-- Extend the 16 message-schedule words by `n` further words. -/
def extendWords (w : List Nat) : Nat → List Nat
  | 0 => w
  | n + 1 =>
    let w' := extendWords w n
    let t := w'.length
    w' ++ [(sSig1 (w'.getD (t - 2) 0) + w'.getD (t - 7) 0 +
            sSig0 (w'.getD (t - 15) 0) + w'.getD (t - 16) 0) % wmod]

/-- One SHA-256 compression round; the state is the list `[a,b,c,d,e,f,g,h]`. -/
def compressRound (st : List Nat) (kw : Nat × Nat) : List Nat :=
  match st with
  | [a, b, c, d, e, f, g, h] =>
    let t1 := (h + bSig1 e + shaCh e f g + kw.1 + kw.2) % wmod
    let t2 := (bSig0 a + shaMaj a b c) % wmod
    [(t1 + t2) % wmod, a, b, c, (d + t1) % wmod, e, f, g]
  | _ => st

/-- Compress one 64-byte chunk into the running hash state. -/
def compressChunk (h : List Nat) (chunk : List Nat) : List Nat :=
  let w := extendWords (toWords chunk) 48
  let st := (k256.zip w).foldl compressRound h
  (h.zip st).map (fun p => (p.1 + p.2) % wmod)

/-- Compress `n` successive 64-byte chunks of `l` into the state `h`. -/
def compressChunks (h : List Nat) (l : List Nat) : Nat → List Nat
  | 0 => h
  | n + 1 => compressChunks (compressChunk h (l.take 64)) (l.drop 64) n

/-- SHA-256 of a byte message, as the list of the 8 final 32-bit words; a
padded message's length is a multiple of 64. -/
def sha256words (msg : List Nat) : List Nat :=
  let padded := padMessage msg
  compressChunks h256 padded (padded.length / 64)

/-- Lowercase hex digit for a value below 16. -/
def hexChar (n : Nat) : Char := if n < 10 then Char.ofNat (48 + n) else Char.ofNat (87 + n)

/-- Render a 32-bit word as 8 lowercase hex characters. -/
def wordHex (x : Nat) : String :=
  String.mk ((List.range 8).map (fun i => hexChar ((x >>> (28 - 4 * i)) % 16)))

/-- `hashlib.sha256(s.encode()).hexdigest()` for an ASCII string `s`. -/
def sha256hex (s : String) : String :=
  String.join ((sha256words (s.data.map Char.toNat)).map wordHex)

/-- Python string slicing `s[:n]`. -/
def strTake (s : String) (n : Nat) : String := String.mk (s.data.take n)

/-! Serialization: `json.dumps(·, sort_keys=True)` with the default
separators `", "` and `": "`, and Python `str()` for f-string interpolation. -/

/-- JSON escaping of one character; the ledger's values only ever contain
characters that JSON emits verbatim, plus quote and backslash. -/
def jesc (c : Char) : String :=
  if c = '"' then "\\\"" else if c = '\\' then "\\\\" else String.singleton c

/-- JSON string literal. -/
def jstr (s : String) : String := "\"" ++ String.join (s.data.map jesc) ++ "\""

/-- Ordering of dict entries by key, as `sort_keys=True` sorts them. -/
def entryLe {β : Type} (a b : String × β) : Prop := a.1 ≤ b.1

instance {β : Type} : IsTotal (String × β) entryLe := ⟨fun a b => le_total a.1 b.1⟩

instance {β : Type} : IsTrans (String × β) entryLe := ⟨fun _ _ _ h1 h2 => le_trans h1 h2⟩

instance {β : Type} : DecidableRel (α := String × β) entryLe :=
  fun a b => inferInstanceAs (Decidable (a.1 ≤ b.1))

/-- Sort dict entries by key (lexicographic code-point order, as Python
compares strings). -/
def sortEntries {β : Type} (l : List (String × β)) : List (String × β) :=
  List.insertionSort entryLe l

mutual

/-- `json.dumps(v, sort_keys=True)`: each object's entries are serialized in
sorted key order. -/
def dumps : PyVal → String
  | .int n => toString n
  | .str s => jstr s
  | .none => "null"
  | .list xs => "[" ++ String.intercalate ", " (dumpsList xs) ++ "]"
  | .dict l => "\x7b" ++ String.intercalate ", "
      ((sortEntries (dumpsEntries l)).map (fun kv => jstr kv.1 ++ ": " ++ kv.2)) ++ "\x7d"

/-- `dumps` of each element of a list. -/
def dumpsList : List PyVal → List String
  | [] => []
  | x :: xs => dumps x :: dumpsList xs

/-- `dumps` of each value of an association list, keeping the keys. -/
def dumpsEntries : List (String × PyVal) → List (String × String)
  | [] => []
  | (k, v) :: l => (k, dumps v) :: dumpsEntries l

end

mutual

/-- Python `repr` of the modelled values (containers render their string
elements single-quoted); only used through `pyStr` below. -/
def pyRepr : PyVal → String
  | .int n => toString n
  | .str s => String.singleton (Char.ofNat 39) ++ s ++ String.singleton (Char.ofNat 39)
  | .none => "None"
  | .list xs => "[" ++ String.intercalate ", " (pyReprList xs) ++ "]"
  | .dict l => "\x7b" ++ String.intercalate ", " (pyReprEntries l) ++ "\x7d"

/-- `pyRepr` of each element of a list. -/
def pyReprList : List PyVal → List String
  | [] => []
  | x :: xs => pyRepr x :: pyReprList xs

/-- Rendered `key: value` pairs of a dict under `repr`. -/
def pyReprEntries : List (String × PyVal) → List String
  | [] => []
  | (k, v) :: l =>
      (String.singleton (Char.ofNat 39) ++ k ++ String.singleton (Char.ofNat 39) ++ ": " ++
        pyRepr v) :: pyReprEntries l

end

/-- Python `str(v)`, as an f-string interpolates a value: strings verbatim,
integers in decimal, containers through `repr`. -/
def pyStr : PyVal → String
  | .int n => toString n
  | .str s => s
  | .none => "None"
  | .list xs => pyRepr (.list xs)
  | .dict l => pyRepr (.dict l)

mutual

/-- Recursive key-sort canonicalization: two values have the same `canon`
exactly when they have identical field values compared structurally,
ignoring the insertion order of dict keys (for the duplicate-free dicts the
program builds). -/
def canon : PyVal → PyVal
  | .int n => .int n
  | .str s => .str s
  | .none => .none
  | .list xs => .list (canonList xs)
  | .dict l => .dict (sortEntries (canonEntries l))

/-- `canon` of each element of a list. -/
def canonList : List PyVal → List PyVal
  | [] => []
  | x :: xs => canon x :: canonList xs

/-- `canon` of each value of an association list, keeping the keys. -/
def canonEntries : List (String × PyVal) → List (String × PyVal)
  | [] => []
  | (k, v) :: l => (k, canon v) :: canonEntries l

end

/-! The ledger (`class Blockchain`) and the module-level `mine` endpoint. -/

namespace Blockchain

/-- `Blockchain.hash`: SHA-256 hex digest of the canonical JSON serialization
of a block (`json.dumps(block, sort_keys=True)`). -/
def hash (block : PyVal) : String := sha256hex (dumps block)

/-- `Blockchain.valid_proof`: does the SHA-256 hex digest of the
delimiter-free concatenation of the two values start with `"0000"`? -/
def valid_proof (last_proof proof : PyVal) : Bool :=
  let guess := pyStr last_proof ++ pyStr proof
  let guess_hash := sha256hex guess
  strTake guess_hash 4 == "0000"

end Blockchain

/-- Transaction dict built by `new_transaction`, in insertion order. -/
def txDict (sender recipient amount : PyVal) : PyVal :=
  .dict [("sender", sender), ("recipient", recipient), ("amount", amount)]

/-- Block dict built by `new_block`, in insertion order. -/
def mkBlock (index : Nat) (timestamp : PyVal) (transactions : List PyVal)
    (proof previous_hash : PyVal) : Dict :=
  [("index", .int index), ("timestamp", timestamp),
   ("transactions", .list transactions), ("proof", proof),
   ("previous_hash", previous_hash)]

/-- Mutable state of a `Blockchain` object: the chain of block dicts, the
pending-transaction buffer and the registered peer set. -/
structure BState where
  chain : List Dict
  current_transactions : List PyVal
  nodes : Finset String

/-- Append the block `new_block` builds (index `len(chain)+1`, the current
pending buffer as its transactions) with the given resolved `previous_hash`
field, and clear the pending buffer. -/
def appendBlock (s : BState) (ts proof ph : PyVal) : BState :=
  { s with
    chain := s.chain ++
      [mkBlock (s.chain.length + 1) ts s.current_transactions proof ph],
    current_transactions := [] }

/-- `Blockchain.new_block(previous_hash, proof)` at timestamp `ts`: builds
the block dict, with `previous_hash or self.hash(self.chain[-1])` as the
link field (the `or` takes the default exactly when the argument is falsy,
and indexing `chain[-1]` raises `IndexError` on an empty chain), clears the
pending buffer and appends the block. -/
def new_blockF (s : BState) (ts : PyVal) (previous_hash proof : PyVal) :
    Except String BState :=
  if falsy previous_hash then
    match s.chain.getLast? with
    | some b => .ok (appendBlock s ts proof (.str (Blockchain.hash (.dict b))))
    | Option.none => .error "IndexError"
  else .ok (appendBlock s ts proof previous_hash)

/-- State change of `Blockchain.new_transaction`: append the transaction
dict to the pending buffer (the method's return value, `last_block['index']
+ 1`, is computed afterwards and is modelled at its call sites). -/
def new_transactionS (s : BState) (sender recipient amount : PyVal) : BState :=
  { s with current_transactions :=
      s.current_transactions ++ [txDict sender recipient amount] }

/-- The genesis block `new_block(previous_hash=1, proof=100)` seals at
construction: the sentinel `1` is truthy, so the default branch that would
index the empty chain is not taken. -/
def genesisBlock (ts : PyVal) : Dict := mkBlock 1 ts [] (.int 100) (.int 1)

/-- State of a freshly constructed `Blockchain` (timestamp of the genesis
block abstracted as `ts`). -/
def initState (ts : PyVal) : BState :=
  { chain := [genesisBlock ts], current_transactions := [], nodes := ∅ }

/-- Network location extraction of `urllib.parse.urlparse`: modelled from
the library's documented behavior, since `urllib` is outside this
repository.  A leading `scheme:` (letter followed by letters, digits, `+`,
`-`, `.`) is stripped; the netloc is what follows a `//` up to the next
`/`, `?` or `#`, and is empty when the remainder does not start with `//`. -/
def netlocOf (address : String) : String :=
  let cs := address.data
  let pre := cs.takeWhile (fun c => c ≠ ':')
  let rest :=
    if pre.length < cs.length ∧ pre ≠ [] ∧
        (pre.headD ' ').isAlpha = true ∧
        pre.all (fun c => c.isAlphanum || c = '+' || c = '-' || c = '.') then
      cs.drop (pre.length + 1)
    else cs
  match rest with
  | '/' :: '/' :: r =>
      String.mk (r.takeWhile (fun c => c ≠ '/' ∧ c ≠ '?' ∧ c ≠ '#'))
  | _ => ""

/-- `Blockchain.register_node`: add `urlparse(address).netloc` to the peer
set (a Python `set`, so duplicates are absorbed). -/
def register_node (s : BState) (address : String) : BState :=
  { s with nodes := insert (netlocOf address) s.nodes }

/-- Loop of `Blockchain.valid_chain`, walking `(last_block, block)` pairs
from index 1.  Field reads follow the source's evaluation order:
`block['previous_hash']` is compared against `self.hash(last_block)` (a
`!=` between values of different types is simply unequal in Python), then
`valid_proof(last_block['previous_hash'], block['proof'])` is checked —
against the previous block's `previous_hash` field, not its `proof`.
Missing keys raise `KeyError`. -/
def validChainLoop (last_block : Dict) : List Dict → Except String Bool
  | [] => .ok true
  | block :: rest =>
      match lookupEntries "previous_hash" block with
      | Option.none => .error "KeyError"
      | some ph =>
        if ph ≠ PyVal.str (Blockchain.hash (.dict last_block)) then .ok false
        else
          match lookupEntries "previous_hash" last_block with
          | Option.none => .error "KeyError"
          | some lph =>
            match lookupEntries "proof" block with
            | Option.none => .error "KeyError"
            | some bp =>
              if Blockchain.valid_proof lph bp = false then .ok false
              else validChainLoop block rest

/-- `Blockchain.valid_chain(chain)`: `chain[0]` raises `IndexError` on an
empty candidate, then the loop above runs; a single-block chain is valid
without any field access. -/
def valid_chain : List Dict → Except String Bool
  | [] => .error "IndexError"
  | b :: rest => validChainLoop b rest

/-- One peer's observable behavior during `resolve_conflicts`: either the
HTTP GET raises (connection error), or it yields a status code and a JSON
body with `length` and `chain` fields. -/
inductive PeerResp where
  | conn_error : PeerResp
  | resp (status : Nat) (length : Int) (chain : List Dict) : PeerResp

/-- Loop of `resolve_conflicts` over the peers: a raised connection error
propagates; a non-200 response is skipped; otherwise the reported `length`
is compared against the running maximum and, only when strictly greater,
the chain is validated and (if valid) adopted as the new candidate. -/
def resolveLoop : List PeerResp → Int → Option (List Dict) →
    Except String (Option (List Dict))
  | [], _, best => .ok best
  | PeerResp.conn_error :: _, _, _ => .error "ConnectionError"
  | PeerResp.resp status length chain :: rest, maxLen, best =>
      if status = 200 then
        if maxLen < length then
          match valid_chain chain with
          | .error e => .error e
          | .ok v =>
            if v then resolveLoop rest length (some chain)
            else resolveLoop rest maxLen best
        else resolveLoop rest maxLen best
      else resolveLoop rest maxLen best

/-- `Blockchain.resolve_conflicts`, with the peers' responses passed in
(iteration order of `self.nodes` fixed by the list): starts from
`max_chain_length = len(self.chain)`, scans all peers, and finally replaces
`self.chain` exactly when a truthy (non-empty) new chain was adopted. -/
def resolve_conflicts (resps : List PeerResp) (s : BState) :
    Except String (Bool × BState) :=
  match resolveLoop resps (s.chain.length : Int) Option.none with
  | .error e => .error e
  | .ok (some c) =>
      if c.isEmpty then .ok (false, s) else .ok (true, { s with chain := c })
  | .ok Option.none => .ok (false, s)

/-- The `/mine` endpoint, with the solved proof `p` passed in for
`proof_of_work(last_proof)` (see `MineStep`): reads the last block and its
`proof`, credits the reward transaction (`new_transaction` also evaluates
`self.last_block['index'] + 1`, whose failures propagate), then seals via
`new_block(proof, previous_hash)` — the solved proof is passed in the
`previous_hash` parameter position and `hash(last_block)` in the `proof`
position. -/
def mineF (node_identifier : String) (ts : PyVal) (p : Int) (s : BState) :
    Except String BState :=
  match s.chain.getLast? with
  | Option.none => .error "IndexError"
  | some last_block =>
    match lookupEntries "proof" last_block with
    | Option.none => .error "KeyError"
    | some _last_proof =>
      let s1 := new_transactionS s (.str "0") (.str node_identifier) (.int 1)
      match lookupEntries "index" last_block with
      | Option.none => .error "KeyError"
      | some (PyVal.int _) =>
          new_blockF s1 ts (.int p) (.str (Blockchain.hash (.dict last_block)))
      | some _ => .error "TypeError"

/-- A completed `mine()` call: `proof_of_work` returned `p`, which it only
does when `valid_proof(last_block['proof'], p)` holds (the solver searches
`0, 1, 2, …` and returns the least solution; no claim depends on
minimality, so the step admits any solution — the concrete traces below use
the actual least ones), and the endpoint ran to completion. -/
def MineStep (node_identifier : String) (ts : PyVal) (p : Int) (s s' : BState) : Prop :=
  (∃ last lp, s.chain.getLast? = some last ∧
    lookupEntries "proof" last = some lp ∧
    Blockchain.valid_proof lp (.int p) = true) ∧
  mineF node_identifier ts p s = .ok s'

/-- States of the running node: construction seals the genesis block, and
the state then evolves by transaction submissions, completed `mine()` calls,
peer registrations and completed conflict resolutions.  Timestamps and peer
responses are nondeterministic parameters of the steps. -/
inductive Reachable (node_identifier : String) : BState → Prop where
  | init (ts : PyVal) : Reachable node_identifier (initState ts)
  | tx {s} (sender recipient amount : PyVal) : Reachable node_identifier s →
      Reachable node_identifier (new_transactionS s sender recipient amount)
  | mine {s s'} (ts : PyVal) (p : Int) : Reachable node_identifier s →
      MineStep node_identifier ts p s s' → Reachable node_identifier s'
  | register {s} (address : String) : Reachable node_identifier s →
      Reachable node_identifier (register_node s address)
  | resolve {s s'} (resps : List PeerResp) (replaced : Bool) :
      Reachable node_identifier s →
      resolve_conflicts resps s = .ok (replaced, s') →
      Reachable node_identifier s'

/-! Specification-side predicates and the concrete states used to settle the
claims. -/

/-- The hash-link invariant of a chain: every block after the first carries
`.str (hash of its predecessor)` in its `previous_hash` field. -/
def LinkInv (c : List Dict) : Prop :=
  ∀ i, i + 1 < c.length →
    lookupEntries "previous_hash" (c.getD (i + 1) []) =
      some (.str (Blockchain.hash (.dict (c.getD i []))))

/-- A block-shaped record with the two fields `valid_chain` reads from every
non-initial block. -/
def wfBlock (b : Dict) : Prop :=
  (lookupEntries "previous_hash" b).isSome = true ∧
  (lookupEntries "proof" b).isSome = true

instance (b : Dict) : Decidable (wfBlock b) :=
  decidable_of_iff ((lookupEntries "previous_hash" b).isSome = true ∧
    (lookupEntries "proof" b).isSome = true) Iff.rfl

/-- What `valid_chain` checks of one adjacent pair `(prev, cur)`: the hash
link, and the puzzle predicate applied to `prev`'s `previous_hash` field
(not its `proof`) and `cur`'s `proof`. -/
def pairOk (prev cur : Dict) : Prop :=
  lookupEntries "previous_hash" cur =
    some (.str (Blockchain.hash (.dict prev))) ∧
  ∃ lph bp, lookupEntries "previous_hash" prev = some lph ∧
    lookupEntries "proof" cur = some bp ∧
    Blockchain.valid_proof lph bp = true

/-- A delivered, well-formed peer response: no connection error, a non-empty
chain of block-shaped records. -/
def okResp : PeerResp → Prop
  | .conn_error => False
  | .resp _ _ chain => chain ≠ [] ∧ ∀ b ∈ chain, wfBlock b

instance : (r : PeerResp) → Decidable (okResp r)
  | .conn_error => isFalse (fun h => h)
  | .resp _ _ chain =>
      decidable_of_iff (chain ≠ [] ∧ ∀ b ∈ chain, wfBlock b) Iff.rfl

/-- A peer that qualifies for adoption against local length `m`: status 200,
reported length strictly greater than `m`, and a chain `valid_chain`
accepts. -/
def QualGT (m : Int) : PeerResp → Prop
  | .conn_error => False
  | .resp status length chain =>
      status = 200 ∧ m < length ∧ valid_chain chain = .ok true

/-- The chain a response carries. -/
def respChain : PeerResp → List Dict
  | .conn_error => []
  | .resp _ _ chain => chain

/-- The length a response reports. -/
def respLen : PeerResp → Int
  | .conn_error => 0
  | .resp _ length _ => length

/-- The state after `mine()` completes on a fresh ledger (timestamps fixed
at `0`, node identity `"n"`): `proof_of_work(100) = 35293`, and the sealed
block carries the solved proof in its `previous_hash` field. -/
def minedFromGenesis : BState :=
  { chain := [genesisBlock (.int 0),
      mkBlock 2 (.int 0) [txDict (.str "0") (.str "n") (.int 1)]
        (.str (Blockchain.hash (.dict (genesisBlock (.int 0))))) (.int 35293)],
    current_transactions := [], nodes := ∅ }

/-- A block whose `proof` field is `88914`: the proof-of-work search from it
solves at `0`, since the digest of `"889140"` starts with `"0000"`. -/
def pzBlock : Dict := mkBlock 1 (.int 0) [] (.int 88914) (.int 1)

/-- A ledger whose last block's proof is `88914`. -/
def proofZeroState : BState :=
  { chain := [pzBlock], current_transactions := [], nodes := ∅ }

/-- The state `mine()` reaches from `proofZeroState` with the solved proof
`0`: the falsy solved proof makes `new_block` fall back to `hash(chain[-1])`
for the `previous_hash` field. -/
def proofZeroMined : BState :=
  { chain := [pzBlock,
      mkBlock 2 (.int 0) [txDict (.str "0") (.str "n") (.int 1)]
        (.str (Blockchain.hash (.dict pzBlock)))
        (.str (Blockchain.hash (.dict pzBlock)))],
    current_transactions := [], nodes := ∅ }

/-- A block-shaped record from an untrusted peer that lacks the
`previous_hash` field. -/
def badPeerBlock : Dict := [("proof", .int 1)]

/-! Lemmas about the canonical serialization. -/

theorem dumpsEntries_eq_map (l : List (String × PyVal)) :
    dumpsEntries l = l.map (fun kv => (kv.1, dumps kv.2)) := by
  induction l with
  | nil => simp [dumpsEntries]
  | cons kv rest ih => cases kv; simp [dumpsEntries, ih]

theorem canonEntries_eq_map (l : List (String × PyVal)) :
    canonEntries l = l.map (fun kv => (kv.1, canon kv.2)) := by
  induction l with
  | nil => simp [canonEntries]
  | cons kv rest ih => cases kv; simp [canonEntries, ih]

theorem sortEntries_map {β γ : Type} (f : β → γ) (l : List (String × β)) :
    sortEntries (l.map (fun kv => (kv.1, f kv.2))) =
      (sortEntries l).map (fun kv => (kv.1, f kv.2)) := by
  unfold sortEntries
  exact (List.map_insertionSort (r := entryLe) (s := entryLe)
    (fun kv => (kv.1, f kv.2)) l (fun _ _ _ _ => Iff.rfl)).symm

theorem sortEntries_idem {β : Type} (l : List (String × β)) :
    sortEntries (sortEntries l) = sortEntries l :=
  List.Sorted.insertionSort_eq (List.sorted_insertionSort entryLe l)

mutual

theorem dumps_canon : ∀ v : PyVal, dumps (canon v) = dumps v
  | .int _ => rfl
  | .str _ => rfl
  | .none => rfl
  | .list xs => by rw [canon, dumps, dumps, dumpsList_canon xs]
  | .dict l => by
      rw [canon, dumps, dumps, dumpsEntries_eq_map, ← sortEntries_map,
        ← dumpsEntries_eq_map, dumpsEntries_canon l, sortEntries_idem]

theorem dumpsList_canon : ∀ xs : List PyVal, dumpsList (canonList xs) = dumpsList xs
  | [] => rfl
  | x :: xs => by rw [canonList, dumpsList, dumpsList, dumps_canon x, dumpsList_canon xs]

theorem dumpsEntries_canon : ∀ l : List (String × PyVal),
    dumpsEntries (canonEntries l) = dumpsEntries l
  | [] => rfl
  | (k, v) :: l => by
      rw [canonEntries, dumpsEntries, dumpsEntries, dumps_canon v, dumpsEntries_canon l]

end

theorem sorted_perm_nodupkeys_eq {β : Type} :
    ∀ {l1 l2 : List (String × β)}, l1.Perm l2 → List.Sorted entryLe l1 →
      List.Sorted entryLe l2 → (l1.map Prod.fst).Nodup → l1 = l2 := by
  intro l1
  induction l1 with
  | nil => intro l2 p _ _ _; exact p.nil_eq
  | cons a t1 ih =>
    intro l2 p s1 s2 nd
    cases l2 with
    | nil => exact absurd p.eq_nil (by simp)
    | cons b t2 =>
      have ndc : (a.1 :: t1.map Prod.fst).Nodup := by
        rw [List.map_cons] at nd; exact nd
      by_cases hab : a = b
      · subst hab
        exact congrArg (a :: ·)
          (ih p.cons_inv s1.of_cons s2.of_cons (List.nodup_cons.mp ndc).2)
      · exfalso
        have ha2 : a ∈ t2 :=
          (List.mem_cons.mp (p.subset (List.mem_cons_self a t1))).resolve_left hab
        have hb1 : b ∈ t1 :=
          (List.mem_cons.mp (p.symm.subset (List.mem_cons_self b t2))).resolve_left
            (fun h => hab h.symm)
        have h1 : entryLe a b := (List.sorted_cons.mp s1).1 b hb1
        have h2 : entryLe b a := (List.sorted_cons.mp s2).1 a ha2
        have hk : a.1 = b.1 := le_antisymm h1 h2
        have hmem : a.1 ∈ t1.map Prod.fst := hk ▸ List.mem_map_of_mem Prod.fst hb1
        exact (List.nodup_cons.mp ndc).1 hmem

theorem sortEntries_eq_of_perm {β : Type} {l1 l2 : List (String × β)}
    (p : l1.Perm l2) (nd : (l1.map Prod.fst).Nodup) :
    sortEntries l1 = sortEntries l2 := by
  refine sorted_perm_nodupkeys_eq
    ((List.perm_insertionSort entryLe l1).trans
      (p.trans (List.perm_insertionSort entryLe l2).symm))
    (List.sorted_insertionSort entryLe l1)
    (List.sorted_insertionSort entryLe l2) ?_
  exact (((List.perm_insertionSort entryLe l1).map Prod.fst).nodup_iff).mpr nd

/-! Lemmas about the chain validator. -/

theorem validChainLoop_total : ∀ (last : Dict) (rest : List Dict),
    wfBlock last → (∀ b ∈ rest, wfBlock b) →
    ∃ t : Bool, validChainLoop last rest = .ok t := by
  intro last rest
  induction rest generalizing last with
  | nil => exact fun _ _ => ⟨true, rfl⟩
  | cons block rest ih =>
    intro wl wr
    have wb : wfBlock block := wr block (List.mem_cons_self _ _)
    obtain ⟨ph, hph⟩ := Option.isSome_iff_exists.mp wb.1
    obtain ⟨lph, hlph⟩ := Option.isSome_iff_exists.mp wl.1
    obtain ⟨bp, hbp⟩ := Option.isSome_iff_exists.mp wb.2
    simp only [validChainLoop, hph, hlph, hbp]
    split_ifs with h1 h2
    · exact ⟨false, rfl⟩
    · exact ⟨false, rfl⟩
    · exact ih block wb (fun b hb => wr b (List.mem_cons_of_mem _ hb))

theorem validChainLoop_iff : ∀ (last : Dict) (rest : List Dict),
    wfBlock last → (∀ b ∈ rest, wfBlock b) →
    (validChainLoop last rest = .ok true ↔ List.Chain' pairOk (last :: rest)) := by
  intro last rest
  induction rest generalizing last with
  | nil => intro _ _; simp [validChainLoop]
  | cons block rest ih =>
    intro wl wr
    have wb : wfBlock block := wr block (List.mem_cons_self _ _)
    have wrest : ∀ b ∈ rest, wfBlock b := fun b hb => wr b (List.mem_cons_of_mem _ hb)
    obtain ⟨ph, hph⟩ := Option.isSome_iff_exists.mp wb.1
    obtain ⟨lph, hlph⟩ := Option.isSome_iff_exists.mp wl.1
    obtain ⟨bp, hbp⟩ := Option.isSome_iff_exists.mp wb.2
    simp only [validChainLoop, hph, hlph, hbp]
    rw [List.chain'_cons]
    by_cases h1 : ph = PyVal.str (Blockchain.hash (.dict last))
    · subst h1
      rw [if_neg (by simp)]
      by_cases h2 : Blockchain.valid_proof lph bp = false
      · rw [if_pos h2]
        constructor
        · intro h; exact absurd h (by simp)
        · rintro ⟨⟨-, lph', bp', hl', hb', hv'⟩, -⟩
          rw [hlph] at hl'
          rw [hbp] at hb'
          cases hl'
          cases hb'
          rw [hv'] at h2
          exact absurd h2 (by simp)
      · rw [if_neg h2, ih block wb wrest]
        have h2' : Blockchain.valid_proof lph bp = true := by
          cases hv : Blockchain.valid_proof lph bp
          · exact absurd hv h2
          · rfl
        have hpair : pairOk last block := ⟨hph, lph, bp, hlph, hbp, h2'⟩
        exact (and_iff_right hpair).symm
    · rw [if_pos h1]
      constructor
      · intro h; exact absurd h (by simp)
      · rintro ⟨⟨hc, -⟩, -⟩
        rw [hph] at hc
        exact ((h1 (Option.some.inj hc))).elim

/-! Lemmas about the consensus resolver. -/

theorem QualGT_resp {m : Int} {st : Nat} {len : Int} {ch : List Dict} :
    QualGT m (.resp st len ch) ↔ st = 200 ∧ m < len ∧ valid_chain ch = .ok true :=
  Iff.rfl

theorem skip_keeps_spec {m : Int} {best best' : Option (List Dict)} {r : PeerResp}
    {rest : List PeerResp} (hnq : ¬ QualGT m r)
    (h : (best' = best ∧ ∀ x ∈ rest, ¬ QualGT m x) ∨
      (∃ x ∈ rest, QualGT m x ∧ best' = some (respChain x) ∧
        ∀ y ∈ rest, QualGT m y → respLen y ≤ respLen x)) :
    (best' = best ∧ ∀ x ∈ r :: rest, ¬ QualGT m x) ∨
      (∃ x ∈ r :: rest, QualGT m x ∧ best' = some (respChain x) ∧
        ∀ y ∈ r :: rest, QualGT m y → respLen y ≤ respLen x) := by
  rcases h with ⟨hb, hq⟩ | ⟨x, hx, hqx, hb, hmax⟩
  · exact Or.inl ⟨hb, fun y hy =>
      (List.mem_cons.mp hy).elim (fun e => e ▸ hnq) (hq y)⟩
  · refine Or.inr ⟨x, List.mem_cons_of_mem _ hx, hqx, hb, fun y hy hqy => ?_⟩
    rcases List.mem_cons.mp hy with e | hy2
    · exact absurd (e ▸ hqy) hnq
    · exact hmax y hy2 hqy

theorem resolveLoop_spec :
    ∀ (resps : List PeerResp) (m : Int) (best : Option (List Dict)),
    (∀ r ∈ resps, okResp r) →
    ∃ best', resolveLoop resps m best = .ok best' ∧
      ((best' = best ∧ ∀ r ∈ resps, ¬ QualGT m r) ∨
       (∃ r ∈ resps, QualGT m r ∧ best' = some (respChain r) ∧
          ∀ y ∈ resps, QualGT m y → respLen y ≤ respLen r)) := by
  intro resps
  induction resps with
  | nil => exact fun m best _ => ⟨best, rfl, Or.inl ⟨rfl, by simp⟩⟩
  | cons r rest ih =>
    intro m best hok
    have hokr : okResp r := hok r (List.mem_cons_self _ _)
    have hokrest : ∀ x ∈ rest, okResp x := fun x hx => hok x (List.mem_cons_of_mem _ hx)
    cases r with
    | conn_error => exact absurd hokr (by simp [okResp])
    | resp status length chain =>
      obtain ⟨hne, hwf⟩ := hokr
      obtain ⟨c0, crest, rfl⟩ := List.exists_cons_of_ne_nil hne
      by_cases hst : status = 200
      · by_cases hlen : m < length
        · obtain ⟨t, ht⟩ := validChainLoop_total c0 crest
            (hwf c0 (List.mem_cons_self _ _))
            (fun b hb => hwf b (List.mem_cons_of_mem _ hb))
          simp only [resolveLoop, if_pos hst, if_pos hlen, valid_chain, ht]
          cases t with
          | true =>
            obtain ⟨best', hb', hcase⟩ := ih length (some (c0 :: crest)) hokrest
            refine ⟨best', hb', Or.inr ?_⟩
            have hq : QualGT m (.resp status length (c0 :: crest)) :=
              QualGT_resp.mpr ⟨hst, hlen, by simp [valid_chain, ht]⟩
            rcases hcase with ⟨hbb, hnq⟩ | ⟨x, hx, hqx, hbb, hmax⟩
            · refine ⟨.resp status length (c0 :: crest), List.mem_cons_self _ _,
                hq, by simpa [respChain] using hbb, fun y hy hqy => ?_⟩
              rcases List.mem_cons.mp hy with e | hy2
              · subst e; exact le_refl _
              · cases y with
                | conn_error => exact absurd hqy (by simp [QualGT])
                | resp st2 len2 ch2 =>
                  obtain ⟨h200, -, hv2⟩ := QualGT_resp.mp hqy
                  have := hnq _ hy2
                  rw [QualGT_resp] at this
                  simp only [respLen]
                  by_contra hlt
                  exact this ⟨h200, by omega, hv2⟩
            · refine ⟨x, List.mem_cons_of_mem _ hx, ?_, hbb, fun y hy hqy => ?_⟩
              · cases x with
                | conn_error => exact absurd hqx (by simp [QualGT])
                | resp st2 len2 ch2 =>
                  obtain ⟨h200, hlt2, hv2⟩ := QualGT_resp.mp hqx
                  exact QualGT_resp.mpr ⟨h200, by omega, hv2⟩
              · rcases List.mem_cons.mp hy with e | hy2
                · subst e
                  cases x with
                  | conn_error => exact absurd hqx (by simp [QualGT])
                  | resp st2 len2 ch2 =>
                    obtain ⟨-, hlt2, -⟩ := QualGT_resp.mp hqx
                    simp only [respLen]
                    omega
                · by_cases hylen : QualGT length y
                  · exact hmax y hy2 hylen
                  · cases y with
                    | conn_error => exact absurd hqy (by simp [QualGT])
                    | resp st3 len3 ch3 =>
                      obtain ⟨h300, hlt3, hv3⟩ := QualGT_resp.mp hqy
                      rw [QualGT_resp] at hylen
                      cases x with
                      | conn_error => exact absurd hqx (by simp [QualGT])
                      | resp st2 len2 ch2 =>
                        obtain ⟨-, hlt2, -⟩ := QualGT_resp.mp hqx
                        simp only [respLen]
                        by_contra hgt
                        exact hylen ⟨h300, by omega, hv3⟩
          | false =>
            obtain ⟨best', hb', hcase⟩ := ih m best hokrest
            refine ⟨best', hb', skip_keeps_spec ?_ hcase⟩
            rw [QualGT_resp]
            rintro ⟨-, -, hv⟩
            rw [valid_chain] at hv
            rw [ht] at hv
            exact absurd (Except.ok.inj hv) (by simp)
        · simp only [resolveLoop, if_pos hst, if_neg hlen]
          obtain ⟨best', hb', hcase⟩ := ih m best hokrest
          refine ⟨best', hb', skip_keeps_spec ?_ hcase⟩
          rw [QualGT_resp]
          rintro ⟨-, hmlt, -⟩
          exact hlen hmlt
      · simp only [resolveLoop, if_neg hst]
        obtain ⟨best', hb', hcase⟩ := ih m best hokrest
        refine ⟨best', hb', skip_keeps_spec ?_ hcase⟩
        rw [QualGT_resp]
        rintro ⟨h200, -, -⟩
        exact hst h200

/-! Field lookups on the block dict `new_block` builds. -/

theorem lookup_mkBlock_previous_hash (i : Nat) (ts : PyVal) (txs : List PyVal)
    (pr ph : PyVal) : lookupEntries "previous_hash" (mkBlock i ts txs pr ph) = some ph :=
  rfl

theorem lookup_mkBlock_proof (i : Nat) (ts : PyVal) (txs : List PyVal)
    (pr ph : PyVal) : lookupEntries "proof" (mkBlock i ts txs pr ph) = some pr :=
  rfl

theorem lookup_mkBlock_transactions (i : Nat) (ts : PyVal) (txs : List PyVal)
    (pr ph : PyVal) :
    lookupEntries "transactions" (mkBlock i ts txs pr ph) = some (.list txs) :=
  rfl

/-! The claims. -/

/-- C4: for every pair of integers, `valid_proof` returns true exactly when
the SHA-256 hex digest of the delimiter-free decimal-string concatenation of
the two starts with `"0000"` as its first four characters, and false for any
other prefix; the model is a pure function of its two arguments. -/
theorem C4_valid_proof_iff_digest : ∀ a b : Int,
    Blockchain.valid_proof (.int a) (.int b) = true ↔
      strTake (sha256hex (toString a ++ toString b)) 4 = "0000" := by
  intro a b
  simp [Blockchain.valid_proof, pyStr]

/-- C4 witness: `valid_proof(100, 35293)` holds, computed through the
characterization. -/
theorem C4_valid_proof_eval :
    Blockchain.valid_proof (.int 100) (.int 35293) = true :=
  (C4_valid_proof_iff_digest 100 35293).mpr (by decide)

/-- C8: the block hash depends only on logical content: permuting the
entries of a duplicate-key-free block dict leaves the digest unchanged, and
more generally any two values with the same recursive key-sort
canonicalization (identical field values compared structurally, nested
transaction values included, regardless of key insertion order) hash to the
same digest. -/
theorem C8_hash_canonical :
    (∀ l1 l2 : List (String × PyVal), l1.Perm l2 → (l1.map Prod.fst).Nodup →
      Blockchain.hash (.dict l1) = Blockchain.hash (.dict l2)) ∧
    (∀ v w : PyVal, canon v = canon w →
      Blockchain.hash v = Blockchain.hash w) := by
  constructor
  · intro l1 l2 p nd
    unfold Blockchain.hash
    congr 1
    rw [dumps, dumps, dumpsEntries_eq_map, dumpsEntries_eq_map]
    have hs : sortEntries (l1.map (fun kv => (kv.1, dumps kv.2))) =
        sortEntries (l2.map (fun kv => (kv.1, dumps kv.2))) := by
      apply sortEntries_eq_of_perm (p.map _)
      have : (l1.map (fun kv => (kv.1, dumps kv.2))).map Prod.fst =
          l1.map Prod.fst := by
        rw [List.map_map]; rfl
      rw [this]
      exact nd
    rw [hs]
  · intro v w h
    unfold Blockchain.hash
    rw [← dumps_canon v, ← dumps_canon w, h]

/-- C8 witness: the two insertion orders of a two-field dict hash alike. -/
theorem C8_hash_eval :
    Blockchain.hash (.dict [("proof", .int 1), ("index", .int 2)]) =
      Blockchain.hash (.dict [("index", .int 2), ("proof", .int 1)]) :=
  C8_hash_canonical.1 _ _ (List.Perm.swap _ _ _) (by decide)

/-- C10: the `previous_hash or hash(chain[-1])` default in `new_block` is
triggered by falsiness, not absence: a falsy supplied previous_hash (0, "",
None) is silently replaced by the hash of the current last block (raising
IndexError when the chain is empty), a truthy one is stored as supplied, and
genesis construction avoids indexing the empty chain only because its
sentinel previous_hash `1` is truthy. -/
theorem C10_falsy_default :
    (∀ (s : BState) (ts pr ph : PyVal) (b : Dict), s.chain.getLast? = some b →
      new_blockF s ts ph pr =
        .ok (appendBlock s ts pr
          (if falsy ph then .str (Blockchain.hash (.dict b)) else ph))) ∧
    (∀ (s : BState) (ts pr ph : PyVal), s.chain = [] → falsy ph = true →
      new_blockF s ts ph pr = .error "IndexError") ∧
    (falsy (.int 0) = true ∧ falsy (.str "") = true ∧ falsy PyVal.none = true ∧
      falsy (.int 1) = false) ∧
    (∀ ts : PyVal,
      new_blockF { chain := [], current_transactions := [], nodes := ∅ } ts
        (.int 1) (.int 100) = .ok (initState ts)) := by
  refine ⟨?_, ?_, ⟨rfl, rfl, rfl, rfl⟩, ?_⟩
  · intro s ts pr ph b hb
    by_cases hf : falsy ph
    · simp [new_blockF, hf, hb]
    · simp [new_blockF, hf]
  · intro s ts pr ph hc hf
    simp [new_blockF, hf, hc]
  · intro ts
    simp [new_blockF, falsy, initState, appendBlock, mkBlock, genesisBlock]

/-- C10 witness: sealing with the falsy previous_hash `0` on a fresh ledger
takes the hash-of-last-block default. -/
theorem C10_falsy_default_eval :
    new_blockF (initState (.int 0)) (.int 1) (.int 0) (.int 7) =
      .ok (appendBlock (initState (.int 0)) (.int 1) (.int 7)
        (if falsy (.int 0) then
          .str (Blockchain.hash (.dict (genesisBlock (.int 0)))) else .int 0)) :=
  C10_falsy_default.1 (initState (.int 0)) (.int 1) (.int 7) (.int 0)
    (genesisBlock (.int 0)) rfl

/-- C9 counterexample: `register_node` on the unparseable address `"foo"`
raises nothing and does not leave the peer set unchanged — the empty netloc
urlparse extracts is silently added to the set. -/
theorem C9_register_node_cex :
    (register_node (initState (.int 0)) "foo").nodes = insert "" ∅ ∧
    (register_node (initState (.int 0)) "foo").nodes ≠ (initState (.int 0)).nodes := by
  have hn : netlocOf "foo" = "" := by decide
  refine ⟨by simp [register_node, hn, initState], ?_⟩
  simp only [register_node, hn, initState]
  exact Finset.insert_ne_empty _ _

/-- C9 amended: `register_node` never fails; it always inserts
`urlparse(address).netloc` into the peer set — which is the empty string for
an address with no parseable network location, silently changing the set —
keeps the rest of the state unchanged, extracts `host:port` from a
well-formed address, and is idempotent for repeated registrations. -/
theorem C9_register_node_behavior :
    (∀ (s : BState) (a : String), register_node s a =
      { s with nodes := insert (netlocOf a) s.nodes }) ∧
    (∀ (s : BState) (a : String),
      register_node (register_node s a) a = register_node s a) ∧
    netlocOf "http://192.168.0.5:5000" = "192.168.0.5:5000" ∧
    netlocOf "foo" = "" := by
  refine ⟨fun s a => rfl, fun s a => ?_, by decide, by decide⟩
  simp [register_node, Finset.insert_idem]

theorem new_transactionS_chain (s : BState) (sender recipient amount : PyVal) :
    (new_transactionS s sender recipient amount).chain = s.chain := rfl

theorem mineF_ok {nid : String} {ts : PyVal} {p : Int} {s : BState} {last : Dict}
    {lp : PyVal} {n : Int}
    (hlast : s.chain.getLast? = some last)
    (hlp : lookupEntries "proof" last = some lp)
    (hidx : lookupEntries "index" last = some (.int n)) :
    mineF nid ts p s =
      .ok (appendBlock (new_transactionS s (.str "0") (.str nid) (.int 1)) ts
        (.str (Blockchain.hash (.dict last)))
        (if p = 0 then .str (Blockchain.hash (.dict last)) else .int p)) := by
  simp only [mineF, hlast, hlp, hidx, new_blockF]
  by_cases hp : p = 0
  · subst hp
    rw [if_pos (show falsy (.int 0) = true from rfl), if_pos rfl]
    rw [show (new_transactionS s (.str "0") (.str nid) (.int 1)).chain.getLast? =
      some last from (new_transactionS_chain s _ _ _).symm ▸ hlast]
  · rw [if_neg (by simp [falsy, hp]), if_neg hp]

/-- C7: a completed `mine()` call grows the chain by exactly one block,
leaves the pending buffer empty, and the sealed block's transactions are
exactly the previously pending ones followed by the single reward
transaction (sender "0", recipient this node's identity, amount 1), in
order. -/
theorem C7_mine_growth : ∀ (nid : String) (ts : PyVal) (p : Int) (s s2 : BState),
    MineStep nid ts p s s2 →
    s2.chain.length = s.chain.length + 1 ∧
    s2.current_transactions = [] ∧
    ∃ blk, s2.chain = s.chain ++ [blk] ∧
      lookupEntries "transactions" blk =
        some (.list (s.current_transactions ++
          [txDict (.str "0") (.str nid) (.int 1)])) := by
  rintro nid ts p s s2 ⟨⟨last, lp, hlast, hlp, -⟩, hm⟩
  rcases hidx : lookupEntries "index" last with - | idx
  · simp only [mineF, hlast, hlp, hidx] at hm
    exact absurd hm (by simp)
  · cases idx with
    | int n =>
      rw [mineF_ok hlast hlp hidx] at hm
      have hs2 := (Except.ok.inj hm).symm
      subst hs2
      refine ⟨by simp [appendBlock, new_transactionS], rfl, ?_⟩
      exact ⟨_, rfl, lookup_mkBlock_transactions _ _ _ _ _⟩
    | str v =>
      simp only [mineF, hlast, hlp, hidx] at hm
      exact absurd hm (by simp)
    | list v =>
      simp only [mineF, hlast, hlp, hidx] at hm
      exact absurd hm (by simp)
    | dict v =>
      simp only [mineF, hlast, hlp, hidx] at hm
      exact absurd hm (by simp)
    | none =>
      simp only [mineF, hlast, hlp, hidx] at hm
      exact absurd hm (by simp)

/-- C7 witness: the concrete mine() from the fresh ledger with the genuine
solved proof 35293. -/
theorem C7_mine_growth_eval :
    minedFromGenesis.chain.length = (initState (.int 0)).chain.length + 1 ∧
    minedFromGenesis.current_transactions = [] ∧
    ∃ blk, minedFromGenesis.chain = (initState (.int 0)).chain ++ [blk] ∧
      lookupEntries "transactions" blk =
        some (.list ((initState (.int 0)).current_transactions ++
          [txDict (.str "0") (.str "n") (.int 1)])) :=
  C7_mine_growth "n" (.int 0) 35293 (initState (.int 0)) minedFromGenesis
    ⟨⟨genesisBlock (.int 0), .int 100, rfl, rfl, by decide⟩, by rfl⟩

/-- C1 counterexample: after one genuine `mine()` from the fresh ledger
(`proof_of_work(100) = 35293`), the reachable state violates the link
invariant — the mined block's previous_hash field holds the integer proof
35293, not the hash string of the genesis block. -/
theorem C1_link_invariant_cex :
    Reachable "n" minedFromGenesis ∧ LinkInv minedFromGenesis.chain = False := by
  constructor
  · exact Reachable.mine (.int 0) 35293 (Reachable.init (.int 0))
      ⟨⟨genesisBlock (.int 0), .int 100, rfl, rfl, by decide⟩, by rfl⟩
  · apply eq_false
    intro h
    have h0 := h 0 (by decide)
    rw [show minedFromGenesis.chain.getD 1 [] = mkBlock 2 (.int 0)
        [txDict (.str "0") (.str "n") (.int 1)]
        (.str (Blockchain.hash (.dict (genesisBlock (.int 0))))) (.int 35293)
        from rfl,
      show minedFromGenesis.chain.getD 0 [] = genesisBlock (.int 0) from rfl,
      lookup_mkBlock_previous_hash] at h0
    exact absurd h0 (by simp)

/-- C1 amended: a block sealed by `new_block` with a falsy previous_hash
argument does link to its predecessor by hash; but a block sealed via
`mine()` with a nonzero solved proof carries that integer proof in its
previous_hash field, which never equals the hash string of the predecessor,
so the link invariant fails for mined blocks. -/
theorem C1_link_invariant_amended :
    (∀ (s : BState) (ts pr ph : PyVal) (b : Dict) (s2 : BState),
      falsy ph = true → s.chain.getLast? = some b →
      new_blockF s ts ph pr = .ok s2 →
      ∃ blk, s2.chain = s.chain ++ [blk] ∧
        lookupEntries "previous_hash" blk =
          some (.str (Blockchain.hash (.dict b)))) ∧
    (∀ (nid : String) (ts : PyVal) (p : Int) (s s2 : BState), p ≠ 0 →
      MineStep nid ts p s s2 →
      ∃ last blk, s.chain.getLast? = some last ∧ s2.chain = s.chain ++ [blk] ∧
        lookupEntries "previous_hash" blk = some (.int p) ∧
        PyVal.int p ≠ PyVal.str (Blockchain.hash (.dict last))) := by
  constructor
  · intro s ts pr ph b s2 hf hb hm
    simp only [new_blockF, if_pos hf, hb] at hm
    have hs2 := (Except.ok.inj hm).symm
    subst hs2
    exact ⟨_, rfl, lookup_mkBlock_previous_hash _ _ _ _ _⟩
  · rintro nid ts p s s2 hp ⟨⟨last, lp, hlast, hlp, -⟩, hm⟩
    rcases hidx : lookupEntries "index" last with - | idx
    · simp only [mineF, hlast, hlp, hidx] at hm
      exact absurd hm (by simp)
    · cases idx with
      | int n =>
        rw [mineF_ok hlast hlp hidx] at hm
        have hs2 := (Except.ok.inj hm).symm
        subst hs2
        refine ⟨last, _, hlast, rfl, ?_, by simp⟩
        rw [lookup_mkBlock_previous_hash, if_neg hp]
      | str v =>
        simp only [mineF, hlast, hlp, hidx] at hm
        exact absurd hm (by simp)
      | list v =>
        simp only [mineF, hlast, hlp, hidx] at hm
        exact absurd hm (by simp)
      | dict v =>
        simp only [mineF, hlast, hlp, hidx] at hm
        exact absurd hm (by simp)
      | none =>
        simp only [mineF, hlast, hlp, hidx] at hm
        exact absurd hm (by simp)

/-- C1 amended witness: sealing on the fresh ledger with the falsy
previous_hash `0` links the new block to the genesis block by hash. -/
theorem C1_link_invariant_amended_eval :
    ∃ blk, (appendBlock (initState (.int 0)) (.int 1) (.int 7)
        (.str (Blockchain.hash (.dict (genesisBlock (.int 0)))))).chain =
      (initState (.int 0)).chain ++ [blk] ∧
      lookupEntries "previous_hash" blk =
        some (.str (Blockchain.hash (.dict (genesisBlock (.int 0))))) :=
  C1_link_invariant_amended.1 (initState (.int 0)) (.int 1) (.int 7) (.int 0)
    (genesisBlock (.int 0))
    (appendBlock (initState (.int 0)) (.int 1) (.int 7)
      (.str (Blockchain.hash (.dict (genesisBlock (.int 0)))))) rfl rfl rfl

/-- C2: corrected — `mine()` passes the solved proof and the previous hash
into `new_block` in swapped positions, so the sealed block's proof field
always receives the hash string of the previous block, and its
previous_hash field receives the solved proof exactly when that proof is
nonzero (truthy); a solved proof of 0 is falsy and the field falls back to
hash(last block). -/
theorem C2_mine_field_swap : ∀ (nid : String) (ts : PyVal) (p : Int) (s s2 : BState),
    MineStep nid ts p s s2 →
    ∃ last blk, s.chain.getLast? = some last ∧ s2.chain = s.chain ++ [blk] ∧
      lookupEntries "proof" blk =
        some (.str (Blockchain.hash (.dict last))) ∧
      lookupEntries "previous_hash" blk =
        some (if p = 0 then .str (Blockchain.hash (.dict last)) else .int p) := by
  rintro nid ts p s s2 ⟨⟨last, lp, hlast, hlp, -⟩, hm⟩
  rcases hidx : lookupEntries "index" last with - | idx
  · simp only [mineF, hlast, hlp, hidx] at hm
    exact absurd hm (by simp)
  · cases idx with
    | int n =>
      rw [mineF_ok hlast hlp hidx] at hm
      have hs2 := (Except.ok.inj hm).symm
      subst hs2
      exact ⟨last, _, hlast, rfl, lookup_mkBlock_proof _ _ _ _ _,
        lookup_mkBlock_previous_hash _ _ _ _ _⟩
    | str v =>
      simp only [mineF, hlast, hlp, hidx] at hm
      exact absurd hm (by simp)
    | list v =>
      simp only [mineF, hlast, hlp, hidx] at hm
      exact absurd hm (by simp)
    | dict v =>
      simp only [mineF, hlast, hlp, hidx] at hm
      exact absurd hm (by simp)
    | none =>
      simp only [mineF, hlast, hlp, hidx] at hm
      exact absurd hm (by simp)

/-- C2 witness: the concrete mine() from `proofZeroState` (solved proof 0),
through the corrected statement. -/
theorem C2_mine_field_swap_eval :
    ∃ last blk, proofZeroState.chain.getLast? = some last ∧
      proofZeroMined.chain = proofZeroState.chain ++ [blk] ∧
      lookupEntries "proof" blk =
        some (.str (Blockchain.hash (.dict last))) ∧
      lookupEntries "previous_hash" blk =
        some (if (0 : Int) = 0 then .str (Blockchain.hash (.dict last))
          else .int 0) :=
  C2_mine_field_swap "n" (.int 0) 0 proofZeroState proofZeroMined
    ⟨⟨pzBlock, .int 88914, rfl, rfl, by decide⟩, by rfl⟩

/-- C2 counterexample: from a ledger whose last block's proof is 88914, the
proof-of-work search solves at 0 (the digest of `"889140"` starts with
`"0000"`); the mined block's previous_hash field is then NOT the solved
proof 0 — the falsy default replaces it with the hash of the last block. -/
theorem C2_mine_field_swap_cex :
    MineStep "n" (.int 0) 0 proofZeroState proofZeroMined ∧
    (lookupEntries "previous_hash" (proofZeroMined.chain.getD 1 []) =
      some (.int 0)) = False := by
  refine ⟨⟨⟨pzBlock, .int 88914, rfl, rfl, by decide⟩, by rfl⟩, ?_⟩
  apply eq_false
  intro h
  rw [show proofZeroMined.chain.getD 1 [] = mkBlock 2 (.int 0)
      [txDict (.str "0") (.str "n") (.int 1)]
      (.str (Blockchain.hash (.dict pzBlock)))
      (.str (Blockchain.hash (.dict pzBlock))) from rfl,
    lookup_mkBlock_previous_hash] at h
  exact absurd h (by simp)

/-- C3: `valid_chain` walks adjacent pairs from index 1: a chain of length 1
is always valid, whatever its one record holds, and a non-empty chain of
block-shaped records validates to true exactly when every adjacent pair
passes both the hash-link check and the puzzle check
`valid_proof(prev.previous_hash, cur.proof)` — the previous block's
previous_hash field, not its proof. -/
theorem C3_valid_chain_characterization :
    (∀ b : Dict, valid_chain [b] = .ok true) ∧
    (∀ chain : List Dict, chain ≠ [] → (∀ b ∈ chain, wfBlock b) →
      (valid_chain chain = .ok true ↔ List.Chain' pairOk chain)) := by
  constructor
  · intro b; rfl
  · intro chain hne hwf
    obtain ⟨c0, crest, rfl⟩ := List.exists_cons_of_ne_nil hne
    simp only [valid_chain]
    exact validChainLoop_iff c0 crest (hwf c0 (List.mem_cons_self _ _))
      (fun b hb => hwf b (List.mem_cons_of_mem _ hb))

/-- C3 witness: the genesis-only chain is valid, and the characterization
instantiates on it. -/
theorem C3_valid_chain_eval :
    valid_chain [genesisBlock (.int 0)] = .ok true ∧
    (valid_chain [genesisBlock (.int 0)] = .ok true ↔
      List.Chain' pairOk [genesisBlock (.int 0)]) :=
  ⟨C3_valid_chain_characterization.1 _,
   C3_valid_chain_characterization.2 _ (by simp) (by decide)⟩

/-- C6 counterexample: a delivered 200 response of reported length 2 whose
second block lacks the previous_hash field makes `resolve_conflicts` raise
KeyError — the malformed peer is fatal, not skipped. -/
theorem C6_resolver_crash_cex :
    resolve_conflicts [.resp 200 2 [genesisBlock (.int 0), badPeerBlock]]
      (initState (.int 0)) = .error "KeyError" := rfl

/-- C6 amended: validation does yield a boolean for every non-empty chain of
well-formed block records, but it is not exception-safe on malformed input:
a non-initial record missing previous_hash raises KeyError, which propagates
out of `resolve_conflicts`, and an unreachable peer (connection error)
aborts the resolver likewise; only non-200 responses are skipped. -/
theorem C6_validation_totality :
    (∀ chain : List Dict, chain ≠ [] → (∀ b ∈ chain, wfBlock b) →
      ∃ t : Bool, valid_chain chain = .ok t) ∧
    (∀ (g b : Dict) (rest : List Dict),
      lookupEntries "previous_hash" b = Option.none →
      valid_chain (g :: b :: rest) = .error "KeyError") ∧
    (∀ (rest : List PeerResp) (s : BState),
      resolve_conflicts (PeerResp.conn_error :: rest) s =
        .error "ConnectionError") := by
  refine ⟨?_, ?_, fun rest s => rfl⟩
  · intro chain hne hwf
    obtain ⟨c0, crest, rfl⟩ := List.exists_cons_of_ne_nil hne
    simp only [valid_chain]
    exact validChainLoop_total c0 crest (hwf c0 (List.mem_cons_self _ _))
      (fun b hb => hwf b (List.mem_cons_of_mem _ hb))
  · intro g b rest hmiss
    simp [valid_chain, validChainLoop, hmiss]

/-- C6 amended witness: the concrete malformed chain raises KeyError from
validation itself. -/
theorem C6_validation_totality_eval :
    valid_chain [genesisBlock (.int 0), badPeerBlock] = .error "KeyError" :=
  C6_validation_totality.2.1 (genesisBlock (.int 0)) badPeerBlock [] rfl

/-- C5: with every peer delivering a well-formed response, the resolver
replaces the chain exactly when some peer reports status 200, a length
strictly greater than the local chain's (ties never replace), and a chain
passing validation; it then adopts the chain of a qualifying peer of
maximal reported length and returns true; otherwise it returns false and
the state — chain, pending buffer and peer set — is retained unchanged. -/
theorem C5_resolve_longest : ∀ (s : BState) (resps : List PeerResp),
    (∀ r ∈ resps, okResp r) →
    ∃ (replaced : Bool) (s2 : BState),
      resolve_conflicts resps s = .ok (replaced, s2) ∧
      ((∀ r ∈ resps, ¬ QualGT (s.chain.length : Int) r) →
        replaced = false ∧ s2 = s) ∧
      (∀ r0 ∈ resps, QualGT (s.chain.length : Int) r0 →
        replaced = true ∧
        ∃ r ∈ resps, QualGT (s.chain.length : Int) r ∧
          s2 = { s with chain := respChain r } ∧
          ∀ y ∈ resps, QualGT (s.chain.length : Int) y →
            respLen y ≤ respLen r) := by
  intro s resps hok
  obtain ⟨best, hb, hcase⟩ := resolveLoop_spec resps (s.chain.length : Int)
    Option.none hok
  rcases hcase with ⟨hbn, hnq⟩ | ⟨r, hr, hq, hbs, hmax⟩
  · subst hbn
    refine ⟨false, s, ?_, fun _ => ⟨rfl, rfl⟩, ?_⟩
    · simp [resolve_conflicts, hb]
    · intro r0 hr0 hq0
      exact absurd hq0 (hnq r0 hr0)
  · subst hbs
    have hne : respChain r ≠ [] := by
      have hokr := hok r hr
      cases r with
      | conn_error => exact absurd hokr (by simp [okResp])
      | resp st len ch => exact hokr.1
    refine ⟨true, { s with chain := respChain r }, ?_, ?_, ?_⟩
    · rw [resolve_conflicts, hb]
      simp [hne]
    · intro hall
      exact absurd hq (hall r hr)
    · intro r0 hr0 hq0
      exact ⟨rfl, r, hr, hq, rfl, hmax⟩

/-- C5 witness: a lone non-200 peer neither crashes the resolver nor
replaces the local chain. -/
theorem C5_resolve_longest_eval :
    ∃ (replaced : Bool) (s2 : BState),
      resolve_conflicts [PeerResp.resp 404 5 [genesisBlock (.int 0)]]
        (initState (.int 0)) = .ok (replaced, s2) ∧
      ((∀ r ∈ [PeerResp.resp 404 5 [genesisBlock (.int 0)]],
          ¬ QualGT ((initState (.int 0)).chain.length : Int) r) →
        replaced = false ∧ s2 = initState (.int 0)) ∧
      (∀ r0 ∈ [PeerResp.resp 404 5 [genesisBlock (.int 0)]],
        QualGT ((initState (.int 0)).chain.length : Int) r0 →
          replaced = true ∧
          ∃ r ∈ [PeerResp.resp 404 5 [genesisBlock (.int 0)]],
            QualGT ((initState (.int 0)).chain.length : Int) r ∧
            s2 = { initState (.int 0) with chain := respChain r } ∧
            ∀ y ∈ [PeerResp.resp 404 5 [genesisBlock (.int 0)]],
              QualGT ((initState (.int 0)).chain.length : Int) y →
                respLen y ≤ respLen r) :=
  C5_resolve_longest (initState (.int 0))
    [PeerResp.resp 404 5 [genesisBlock (.int 0)]] (by decide)
